import Mathlib

/-!
Shallow embedding of the version-history subsystem of the Cody document
editor: the SQL trigger `create_document_version` and the schema of
`document_versions` (the SQL migration file), and the client-side zustand
document store (`src/stores/documentStore.ts`) together with the dashboard
handlers (`src/pages/DashboardPage.tsx`).

Strings stand for SQL `TEXT` and JS strings; timestamps are naturals
(`now` ticks forward on every server operation); ids are naturals.
-/

namespace Cody

/-- A row of the `documents` table: id, title, content, owner, updated_at. -/
structure Document where
  id : Nat
  title : String
  content : String
  user_id : Nat
  updated_at : Nat
deriving DecidableEq

/-- A row of the `document_versions` table (SQL migration, lines 5-13):
document_id, title, content, change_type, user_id, created_at. -/
structure Version where
  document_id : Nat
  title : String
  content : String
  change_type : String
  user_id : Nat
  created_at : Nat
deriving DecidableEq

/-- The decision cascade of the trigger function `create_document_version`
(SQL migration, lines 43-54): on INSERT the classification is `created`;
otherwise the OLD/NEW titles and contents are compared in order, returning
`none` when nothing differs (no version row is inserted). -/
def classifyChange (isInsert : Bool) (oldTitle oldContent newTitle newContent : String) :
    Option String :=
  if isInsert then some "created"
  else if oldTitle ≠ newTitle ∧ oldContent ≠ newContent then some "content_modified"
  else if oldTitle ≠ newTitle then some "title_updated"
  else if oldContent ≠ newContent then some "content_modified"
  else none

/-- Server-side database state: the two tables, a fresh-id counter for
`documents.id`, and a clock supplying `NOW()`.  `versions` is kept in
insertion order (the append-only log). -/
structure DB where
  documents : List Document
  versions : List Version
  nextId : Nat
  now : Nat
deriving DecidableEq

/-- Row lookup `WHERE id = did` on `documents`. -/
def findDoc (db : DB) (did : Nat) : Option Document :=
  db.documents.find? (fun d => d.id = did)

/-- Query `SELECT * FROM document_versions WHERE document_id = did` in insertion
order (before the ORDER BY applied by the client query). -/
def docVersions (db : DB) (did : Nat) : List Version :=
  db.versions.filter (fun v => v.document_id = did)

/-- Statement `INSERT INTO documents (title, content, user_id) VALUES (title, '', uid)`
followed by the AFTER INSERT firing of `trigger_create_document_version`,
which appends a `created` version (TG_OP = 'INSERT' branch). -/
def insertDocument (db : DB) (title : String) (uid : Nat) : DB :=
  let d : Document := ⟨db.nextId, title, "", uid, db.now⟩
  { documents := db.documents ++ [d]
    versions := db.versions ++ [⟨d.id, d.title, d.content, "created", uid, db.now⟩]
    nextId := db.nextId + 1
    now := db.now + 1 }

/-- Statement `UPDATE documents SET title, content, updated_at WHERE id = did` followed
by the AFTER UPDATE firing of the trigger: a version row with the NEW
(title, content) and the classification from `classifyChange` is inserted
when the cascade says so.  When no row matches the filter nothing happens
(and no trigger fires). -/
def updateDocument (db : DB) (did : Nat) (nt nc : String) : DB :=
  match findDoc db did with
  | none => db
  | some d =>
    let d' : Document := ⟨d.id, nt, nc, d.user_id, db.now⟩
    { documents := db.documents.map (fun x => if x.id = did then d' else x)
      versions :=
        match classifyChange false d.title d.content nt nc with
        | some ct => db.versions ++ [⟨did, nt, nc, ct, d.user_id, db.now⟩]
        | none => db.versions
      nextId := db.nextId
      now := db.now + 1 }

/-- Statement `DELETE FROM documents WHERE id = did`; the `ON DELETE CASCADE` clause on
`document_versions.document_id` (SQL migration, line 7) removes every
version row of that document. -/
def deleteDocument (db : DB) (did : Nat) : DB :=
  { documents := db.documents.filter (fun d => ¬ d.id = did)
    versions := db.versions.filter (fun v => ¬ v.document_id = did)
    nextId := db.nextId
    now := db.now + 1 }

/-- The server-side effect of `restoreVersion(documentId, versionId)`
(documentStore.ts, lines 215-292) once the target version `v` has been
fetched: update the document with the version's title and content (firing
the trigger), then — only when the acting-user lookup returned a user —
insert a `restored` version row.  The insert is subject to the foreign-key
constraint `document_id REFERENCES documents(id)`: it only lands when the
document row exists. -/
def restoreVersion (db : DB) (did : Nat) (v : Version) (u : Option Nat) : DB :=
  let db1 := updateDocument db did v.title v.content
  match u with
  | none => db1
  | some uid =>
    if (findDoc db1 did).isSome then
      { documents := db1.documents
        versions := db1.versions ++ [⟨did, v.title, v.content, "restored", uid, db1.now⟩]
        nextId := db1.nextId
        now := db1.now + 1 }
    else db1

/-- The database states reachable from the empty database by the operations
the application issues. -/
inductive Reachable : DB → Prop
  | init : Reachable ⟨[], [], 0, 0⟩
  | create (t : String) (uid : Nat) {db : DB} :
      Reachable db → Reachable (insertDocument db t uid)
  | update (did : Nat) (nt nc : String) {db : DB} :
      Reachable db → Reachable (updateDocument db did nt nc)
  | del (did : Nat) {db : DB} :
      Reachable db → Reachable (deleteDocument db did)
  | restore (did : Nat) (v : Version) (u : Option Nat) {db : DB} :
      Reachable db → v ∈ db.versions → Reachable (restoreVersion db did v u)

/-! ## Client-side store (`src/stores/documentStore.ts`)

The zustand store is modelled as an explicit state record; each store action
becomes a function from the prior state and the responses of the external
storage/identity calls to the next state.  `Except String α` stands for a
supabase response: `.error e` when the call returned an error object,
`.ok a` otherwise. -/

/-- Ordering used by the `ORDER BY created_at DESC` clause of the version
history query: newest first. -/
def newestFirst (a b : Version) : Prop :=
  b.created_at ≤ a.created_at

instance : DecidableRel newestFirst := fun a b => Nat.decLe b.created_at a.created_at

instance : IsTotal Version newestFirst :=
  ⟨fun a b => Nat.le_total b.created_at a.created_at⟩

instance : IsTrans Version newestFirst :=
  ⟨fun _ _ _ hab hbc => Nat.le_trans hbc hab⟩

/-- A row returned by the fetchVersionHistory query: the version columns
joined with `user_email:user_id(email)` — an email object that may be null. -/
structure VersionRow where
  version : Version
  email : Option String
deriving DecidableEq

/-- An entry of the client's `versions` list after the transform in
fetchVersionHistory: the version plus the resolved display email. -/
structure DisplayVersion where
  version : Version
  user_email : String
deriving DecidableEq

/-- Client-side zustand state of `useDocumentStore` (documentStore.ts,
lines 26-32). -/
structure StoreState where
  documents : List Document
  currentDocument : Option Document
  versions : List DisplayVersion
  loading : Bool
  versionsLoading : Bool
  error : Option String
deriving DecidableEq

/-- Server evaluation of the fetchVersionHistory query (documentStore.ts,
lines 189-196): `SELECT *, user_email:user_id(email) FROM document_versions
WHERE document_id = did ORDER BY created_at DESC`. -/
def listByDocument (db : DB) (emails : Nat → Option String) (did : Nat) :
    List VersionRow :=
  (List.insertionSort newestFirst (docVersions db did)).map
    (fun v => ⟨v, emails v.user_id⟩)

/-- The transform `version.user_email?.email || 'Unknown user'`
(documentStore.ts, line 203); a missing join object and a falsy (empty)
email both fall back. -/
def resolveEmail (e : Option String) : String :=
  match e with
  | some s => if s = "" then "Unknown user" else s
  | none => "Unknown user"

/-- Action `fetchVersionHistory` (documentStore.ts, lines 185-213): set the
versions-loading flag, then either record the error or store the transformed
rows. -/
def fetchVersionHistoryClient (s : StoreState)
    (resp : Except String (List VersionRow)) : StoreState :=
  let s0 := { s with versionsLoading := true, error := none }
  match resp with
  | .error e => { s0 with error := some e, versionsLoading := false }
  | .ok rows =>
      { s0 with
        versions := rows.map (fun r => ⟨r.version, resolveEmail r.email⟩)
        versionsLoading := false }

/-- The external responses consumed by one run of `restoreVersion`
(documentStore.ts, lines 215-292): the version fetch, the document update,
the acting-user lookup, and the response of the `restored`-version insert.
The code awaits the insert but never reads its response, so `insertResult`
is deliberately unused below — exactly as in the source. -/
structure RestoreEffects where
  fetchVersion : Except String Version
  updateResult : Except String Unit
  user : Option Nat
  insertResult : Except String Unit

/-- Action `restoreVersion(documentId, versionId)` on the client: on a fetch or
update error the catch block records the error; otherwise the `restored`
version row is sent only under the `if (user)` guard, and the local
document state is overwritten with the version's title and content.  The
second component is the `restored` row the client sends to the store
(`none` when nothing was sent).  The trailing `fetchVersionHistory` refresh
is a separate action (`fetchVersionHistoryClient`). -/
def restoreVersionClient (s : StoreState) (did : Nat) (eff : RestoreEffects)
    (now : Nat) : StoreState × Option Version :=
  let s0 := { s with loading := true, error := none }
  match eff.fetchVersion with
  | .error e => ({ s0 with error := some e, loading := false }, none)
  | .ok v =>
    match eff.updateResult with
    | .error e => ({ s0 with error := some e, loading := false }, none)
    | .ok _ =>
      let ins : Option Version :=
        match eff.user with
        | some uid => some ⟨did, v.title, v.content, "restored", uid, now⟩
        | none => none
      let cur : Option Document :=
        match s0.currentDocument with
        | some d =>
            if d.id = did then
              some { d with title := v.title, content := v.content, updated_at := now }
            else some d
        | none => none
      ({ s0 with
          currentDocument := cur
          documents := s0.documents.map (fun d =>
            if d.id = did then
              { d with title := v.title, content := v.content, updated_at := now }
            else d)
          loading := false }, ins)

/-- The `Partial<Document>` update payload restricted to the fields the app
ever sends (title and content). -/
structure DocUpdates where
  title : Option String
  content : Option String
deriving DecidableEq

/-- Spreading `{...doc, ...updates, updated_at}` for a payload of optional
title/content fields. -/
def applyUpdates (d : Document) (u : DocUpdates) (now : Nat) : Document :=
  { d with
    title := u.title.getD d.title
    content := u.content.getD d.content
    updated_at := now }

/-- Action `updateDocument` (documentStore.ts, lines 112-150): no loading flag is
touched; on an error only the error message is recorded; on success the
current document and the documents list are patched locally. -/
def updateDocumentClient (s : StoreState) (did : Nat) (u : DocUpdates)
    (result : Except String Unit) (now : Nat) : StoreState :=
  match result with
  | .error e => { s with error := some e }
  | .ok _ =>
      { s with
        currentDocument :=
          match s.currentDocument with
          | some d => if d.id = did then some (applyUpdates d u now) else some d
          | none => none
        documents := s.documents.map (fun d =>
          if d.id = did then applyUpdates d u now else d) }

/-- Action `deleteDocument` (documentStore.ts, lines 152-181). -/
def deleteDocumentClient (s : StoreState) (did : Nat)
    (result : Except String Unit) : StoreState :=
  let s0 := { s with loading := true, error := none }
  match result with
  | .error e => { s0 with error := some e, loading := false }
  | .ok _ =>
      let s1 := { s0 with
        documents := s0.documents.filter (fun d => ¬ d.id = did)
        loading := false }
      match s1.currentDocument with
      | some d => if d.id = did then { s1 with currentDocument := none } else s1
      | none => s1

/-- Action `createDocument` (documentStore.ts, lines 75-110): authenticated-user
check, then the insert of `{title, content: '', user_id}`; the returned row
is prepended to the documents list and its id returned. -/
def createDocumentClient (s : StoreState) (title : String) (user : Option Nat)
    (insertResult : Except String Nat) (now : Nat) : StoreState × Option Document :=
  let s0 := { s with loading := true, error := none }
  match user with
  | none => ({ s0 with error := some "User not authenticated", loading := false }, none)
  | some uid =>
    match insertResult with
    | .error e => ({ s0 with error := some e, loading := false }, none)
    | .ok newId =>
      let d : Document := ⟨newId, title, "", uid, now⟩
      ({ s0 with documents := d :: s0.documents, loading := false }, some d)

/-- JS `String.prototype.trim`: strip leading and trailing whitespace. -/
def jsTrim (s : String) : String :=
  ⟨((s.data.dropWhile Char.isWhitespace).reverse.dropWhile Char.isWhitespace).reverse⟩

/-- Handler `handleCreateDocument` (DashboardPage.tsx, lines 29-40): the guard
`if (!newDocTitle.trim()) return` silently drops a blank title; otherwise
the store action runs with the trimmed title. -/
def handleCreateDocument (s : StoreState) (newDocTitle : String)
    (user : Option Nat) (insertResult : Except String Nat) (now : Nat) :
    StoreState × Option Document :=
  if jsTrim newDocTitle = "" then (s, none)
  else createDocumentClient s (jsTrim newDocTitle) user insertResult now

/-! ## Debounced autosave (`src/pages/DashboardPage.tsx`, lines 229-263)

An edit is a change of the local (title, content) at a point in time.  The
auto-save effect schedules `saveDocument` with `setTimeout(…, 1000)` and its
cleanup clears the pending timer, so the timer of an edit fires exactly
1000 ms later unless a further edit arrives strictly before that moment. -/

/-- One effect-triggering change of the editor's local (title, content). -/
structure Edit where
  t : Nat
  title : String
  content : String
deriving DecidableEq

/-- The timer firings produced by a chronological list of edits: the timer
of edit `e` is cleared when the next edit arrives before `e.t + 1000`,
otherwise it fires at `e.t + 1000` carrying `e`'s data (the latest local
state at firing time). -/
def debounceFires : List Edit → List (Nat × Edit)
  | [] => []
  | [e] => [(e.t + 1000, e)]
  | e :: f :: rest =>
      if f.t < e.t + 1000 then debounceFires (f :: rest)
      else (e.t + 1000, e) :: debounceFires (f :: rest)

/-- The guard of `saveDocument` (DashboardPage.tsx, lines 236-238): a firing
whose (title, content) equals the last persisted state issues no write;
otherwise a write is issued and becomes the new persisted state. -/
def writesFrom (base : String × String) :
    List (Nat × Edit) → List (Nat × String × String)
  | [] => []
  | (ft, e) :: rest =>
      if (e.title, e.content) = base then writesFrom base rest
      else (ft, e.title, e.content) :: writesFrom (e.title, e.content) rest

/-- The writes issued by the debounced autosave loop for a chronological
list of edits, starting from persisted state `base`. -/
def debounceWrites (base : String × String) (edits : List Edit) :
    List (Nat × String × String) :=
  writesFrom base (debounceFires edits)

/-! ## Concrete example data used by witnesses and counterexamples -/

/-- A concrete store state: one document, currently open, no versions. -/
def exState : StoreState :=
  { documents := [⟨0, "A", "x", 7, 0⟩]
    currentDocument := some ⟨0, "A", "x", 7, 0⟩
    versions := []
    loading := false
    versionsLoading := false
    error := none }

/-- A concrete version row of document 0. -/
def exVersion : Version := ⟨0, "B", "y", "created", 7, 0⟩

/-- A concrete database: document 0 live as ("B", "y") with its history. -/
def exDB : DB :=
  { documents := [⟨0, "B", "y", 7, 1⟩]
    versions := [⟨0, "A", "x", "created", 7, 0⟩, ⟨0, "B", "y", "content_modified", 7, 1⟩]
    nextId := 1
    now := 2 }

/-- An identity lookup that resolves user 7 to an email and nobody else. -/
def exEmailsSome : Nat → Option String :=
  fun u => if u = 7 then some "user@example.com" else none

/-! ## Claims -/

/-- C1: the Version Recorder's classification is decided by the first
matching rule of: first write → `created`; both title and content differ →
`content_modified`; only title differs → `title_updated`; only content
differs → `content_modified`; neither differs → no version is appended. -/
theorem C1_recorder_rule (first : Bool) (ot oc nt nc : String) :
    (first = true → classifyChange first ot oc nt nc = some "created") ∧
    (first = false → ot ≠ nt → oc ≠ nc →
        classifyChange first ot oc nt nc = some "content_modified") ∧
    (first = false → ot ≠ nt → oc = nc →
        classifyChange first ot oc nt nc = some "title_updated") ∧
    (first = false → ot = nt → oc ≠ nc →
        classifyChange first ot oc nt nc = some "content_modified") ∧
    (first = false → ot = nt → oc = nc →
        classifyChange first ot oc nt nc = none) := by
  refine ⟨?_, ?_, ?_, ?_, ?_⟩ <;> intro h <;> simp_all [classifyChange]

/-- Witness for C1 at a concrete input: both fields differ on a non-first
write, so the classification is `content_modified`. -/
theorem C1_recorder_rule_witness :
    classifyChange false "a" "x" "b" "y" = some "content_modified" :=
  (C1_recorder_rule false "a" "x" "b" "y").2.1 rfl (by decide) (by decide)

/-- C2 counterexample: a restore call that reaches step 3 (the version was
fetched and the document update succeeded) while the acting-user lookup
returns no user sends no `restored` version at all — the append is guarded
by `if (user)`, hence not unconditional. -/
theorem C2_counterexample :
    (restoreVersionClient exState 0 ⟨.ok exVersion, .ok (), none, .ok ()⟩ 5).2 = none := rfl

/-- C2 amended: when the restore reaches step 3 and the acting-user lookup
returns a user, the `restored` version carrying the restored (title,
content) is sent unconditionally — for every store state, in particular
when the restored pair equals the document's current live state. -/
theorem C2_restored_append_with_user (s : StoreState) (did : Nat) (v : Version)
    (uid : Nat) (ins : Except String Unit) (now : Nat) :
    (restoreVersionClient s did ⟨.ok v, .ok (), some uid, ins⟩ now).2 =
      some ⟨did, v.title, v.content, "restored", uid, now⟩ := rfl

/-- C3 (code bug): the `restored`-version insert inside restoreVersion is
awaited but its error result is never read, so a storage failure of that
insert leaves no trace — the call completes with no recorded error and the
loading flag cleared, exactly as on success. -/
theorem C3_restore_insert_error_swallowed :
    ((restoreVersionClient exState 0
        ⟨.ok exVersion, .ok (), some 7, .error "insert failed"⟩ 5).1.error = none) ∧
    ((restoreVersionClient exState 0
        ⟨.ok exVersion, .ok (), some 7, .error "insert failed"⟩ 5).1.loading = false) :=
  ⟨rfl, rfl⟩

/-- C5: listing a document's version history returns all of that document's
versions ordered newest-first by creation timestamp; each entry's acting
user is resolved to their display email (a lookup returning a non-empty
email yields exactly that email), with the "Unknown user" fallback when
resolution fails; and the listing succeeds (no error, loading cleared). -/
theorem C5_version_history_listing (db : DB) (emails : Nat → Option String)
    (did : Nat) (s : StoreState) :
    List.Perm
      ((fetchVersionHistoryClient s (.ok (listByDocument db emails did))).versions.map
        DisplayVersion.version)
      (docVersions db did) ∧
    List.Sorted newestFirst
      ((fetchVersionHistoryClient s (.ok (listByDocument db emails did))).versions.map
        DisplayVersion.version) ∧
    (∀ dv ∈ (fetchVersionHistoryClient s (.ok (listByDocument db emails did))).versions,
      ∀ e, emails dv.version.user_id = some e → ¬ e = "" → dv.user_email = e) ∧
    (∀ dv ∈ (fetchVersionHistoryClient s (.ok (listByDocument db emails did))).versions,
      emails dv.version.user_id = none → dv.user_email = "Unknown user") ∧
    (fetchVersionHistoryClient s (.ok (listByDocument db emails did))).error = none ∧
    (fetchVersionHistoryClient s (.ok (listByDocument db emails did))).versionsLoading
      = false := by
  have hv : (fetchVersionHistoryClient s (.ok (listByDocument db emails did))).versions
      = (List.insertionSort newestFirst (docVersions db did)).map
          (fun v => ⟨v, resolveEmail (emails v.user_id)⟩) := by
    simp [fetchVersionHistoryClient, listByDocument, List.map_map, Function.comp]
  have hmap : ((List.insertionSort newestFirst (docVersions db did)).map
        (fun v => (⟨v, resolveEmail (emails v.user_id)⟩ : DisplayVersion))).map
          DisplayVersion.version
      = List.insertionSort newestFirst (docVersions db did) := by
    rw [List.map_map]
    exact List.map_id _
  refine ⟨?_, ?_, ?_, ?_, rfl, rfl⟩
  · rw [hv, hmap]
    exact List.perm_insertionSort newestFirst (docVersions db did)
  · rw [hv, hmap]
    exact List.sorted_insertionSort newestFirst (docVersions db did)
  · rw [hv]
    intro dv hdv e hsome hne
    obtain ⟨v, _, rfl⟩ := List.mem_map.mp hdv
    simp only at hsome
    simp [resolveEmail, hsome, hne]
  · rw [hv]
    intro dv hdv hnone
    obtain ⟨v, _, rfl⟩ := List.mem_map.mp hdv
    simp only at hnone
    simp [resolveEmail, hnone]

/-- Witness for C5 at concrete inputs: with a lookup that resolves user 7,
the newest listed entry of document 0 carries that user's email, and the
listing succeeds without an error. -/
theorem C5_version_history_listing_witness :
    (⟨⟨0, "B", "y", "content_modified", 7, 1⟩,
        "user@example.com"⟩ : DisplayVersion).user_email = "user@example.com" ∧
    (fetchVersionHistoryClient exState (.ok (listByDocument exDB exEmailsSome 0))).error
      = none :=
  ⟨(C5_version_history_listing exDB exEmailsSome 0 exState).2.2.1
      ⟨⟨0, "B", "y", "content_modified", 7, 1⟩, "user@example.com"⟩ (by decide)
      "user@example.com" (by decide) (by decide),
    (C5_version_history_listing exDB exEmailsSome 0 exState).2.2.2.2.1⟩

/-- C6 counterexample: the create flow for a whitespace-only title silently
returns — the state (in particular its error field) is unchanged and no
document is created, so no Validation error is raised. -/
theorem C6_counterexample :
    handleCreateDocument exState "   " (some 7) (.ok 5) 0 = (exState, none) ∧
    (handleCreateDocument exState "   " (some 7) (.ok 5) 0).1.error = none := by
  constructor <;> rfl

/-- C6 amended: for every title whose trim is empty, the dashboard create
handler is a silent no-op — no document row is created and the state is
left untouched (no Validation error exists in the code; the UI guard simply
returns). -/
theorem C6_blank_title_silent_noop (s : StoreState) (t : String) (u : Option Nat)
    (r : Except String Nat) (now : Nat) (h : jsTrim t = "") :
    handleCreateDocument s t u r now = (s, none) := by
  simp [handleCreateDocument, h]

/-- Witness for the amended C6 at a concrete blank title. -/
theorem C6_blank_title_silent_noop_witness :
    handleCreateDocument exState " " (some 7) (.ok 5) 0 = (exState, none) :=
  C6_blank_title_silent_noop exState " " (some 7) (.ok 5) 0 (by decide)

/-- C10: for updateDocument, deleteDocument and fetchVersionHistory, a
storage failure leaves the documents list, the current document and the
versions list exactly as they were. -/
theorem C10_error_branches_keep_state (s : StoreState) (did : Nat) (u : DocUpdates)
    (e : String) (now : Nat) :
    ((updateDocumentClient s did u (.error e) now).documents = s.documents ∧
      (updateDocumentClient s did u (.error e) now).currentDocument = s.currentDocument ∧
      (updateDocumentClient s did u (.error e) now).versions = s.versions) ∧
    ((deleteDocumentClient s did (.error e)).documents = s.documents ∧
      (deleteDocumentClient s did (.error e)).currentDocument = s.currentDocument ∧
      (deleteDocumentClient s did (.error e)).versions = s.versions) ∧
    ((fetchVersionHistoryClient s (.error e)).documents = s.documents ∧
      (fetchVersionHistoryClient s (.error e)).currentDocument = s.currentDocument ∧
      (fetchVersionHistoryClient s (.error e)).versions = s.versions) :=
  ⟨⟨rfl, rfl, rfl⟩, ⟨rfl, rfl, rfl⟩, ⟨rfl, rfl, rfl⟩⟩

/-- The versions table only ever grows on an insert-document operation. -/
theorem insertDocument_versions_append (db : DB) (t : String) (uid : Nat) :
    ∃ tail, (insertDocument db t uid).versions = db.versions ++ tail :=
  ⟨_, rfl⟩

/-- The versions table only ever grows on a document update (trigger run). -/
theorem updateDocument_versions_append (db : DB) (did : Nat) (nt nc : String) :
    ∃ tail, (updateDocument db did nt nc).versions = db.versions ++ tail := by
  unfold updateDocument
  split
  · exact ⟨[], by simp⟩
  · dsimp only
    split
    · exact ⟨[_], rfl⟩
    · exact ⟨[], by simp⟩

/-- The versions table only ever grows on a restore. -/
theorem restoreVersion_versions_append (db : DB) (did : Nat) (v : Version)
    (u : Option Nat) :
    ∃ tail, (restoreVersion db did v u).versions = db.versions ++ tail := by
  obtain ⟨t1, h1⟩ := updateDocument_versions_append db did v.title v.content
  unfold restoreVersion
  cases u with
  | none => exact ⟨t1, h1⟩
  | some uid =>
      dsimp only
      split
      · exact ⟨t1 ++ [_], by rw [← List.append_assoc, ← h1]⟩
      · exact ⟨t1, h1⟩

/-- C8: deleting a document cascades to its versions — afterwards no version
row with that document id is returned by the history query — and no other
operation ever deletes or mutates an existing version row (each one only
appends to the log). -/
theorem C8_delete_cascades_append_only (db : DB) (did : Nat) :
    docVersions (deleteDocument db did) did = [] ∧
    (∀ emails : Nat → Option String, listByDocument (deleteDocument db did) emails did = []) ∧
    (∀ t uid, ∃ tail, (insertDocument db t uid).versions = db.versions ++ tail) ∧
    (∀ i nt nc, ∃ tail, (updateDocument db i nt nc).versions = db.versions ++ tail) ∧
    (∀ i v u, ∃ tail, (restoreVersion db i v u).versions = db.versions ++ tail) := by
  have hnil : docVersions (deleteDocument db did) did = [] := by
    simp only [docVersions, deleteDocument]
    rw [List.filter_filter]
    simp
  refine ⟨hnil, ?_, ?_, ?_, ?_⟩
  · intro emails
    rw [listByDocument, hnil]
    rfl
  · exact fun t uid => insertDocument_versions_append db t uid
  · exact fun i nt nc => updateDocument_versions_append db i nt nc
  · exact fun i v u => restoreVersion_versions_append db i v u

/-! ## The reachability invariant behind C7 -/

/-- Live document ids stay below the fresh-id counter. -/
def IdsBounded (db : DB) : Prop :=
  ∀ d ∈ db.documents, d.id < db.nextId

/-- Referential integrity of `document_versions.document_id` (enforced by
the foreign key with cascade delete): every version row points at a live
document. -/
def RefIntegrity (db : DB) : Prop :=
  ∀ v ∈ db.versions, ∃ d ∈ db.documents, v.document_id = d.id

/-- Every live document's oldest version is its `created` snapshot. -/
def FirstCreated (db : DB) : Prop :=
  ∀ d ∈ db.documents, ∃ v tail,
    docVersions db d.id = v :: tail ∧ v.change_type = "created"

/-- The combined invariant maintained by every operation. -/
def Inv (db : DB) : Prop := IdsBounded db ∧ RefIntegrity db ∧ FirstCreated db

/-- Filtering for one document commutes with dropping another document's
rows. -/
theorem filter_doc_of_ne {l : List Version} {i j : Nat} (h : ¬ i = j) :
    (l.filter (fun v => ¬ v.document_id = j)).filter (fun v => v.document_id = i)
      = l.filter (fun v => v.document_id = i) := by
  rw [List.filter_filter]
  apply List.filter_congr
  intro v _
  by_cases hv : v.document_id = i
  · have hvj : ¬ v.document_id = j := by
      rw [hv]; exact h
    simp [hv, hvj, h]
  · simp [hv]

/-- Replacing the matching document in the list preserves the multiset of
ids, as long as the replacement keeps the id. -/
theorem mem_map_update_id {l : List Document} {did : Nat} {d' : Document}
    {x : Document} (hx : x ∈ l.map (fun y => if y.id = did then d' else y))
    (hd' : d'.id = did) :
    ∃ y ∈ l, x.id = y.id := by
  obtain ⟨y, hy, rfl⟩ := List.mem_map.mp hx
  refine ⟨y, hy, ?_⟩
  by_cases h : y.id = did
  · simp [h, hd']
  · simp [h]

/-- Operation `insertDocument` preserves the invariant: the fresh document immediately
receives its `created` version from the trigger. -/
theorem inv_insertDocument (db : DB) (t : String) (uid : Nat) (h : Inv db) :
    Inv (insertDocument db t uid) := by
  obtain ⟨hb, hr, hf⟩ := h
  refine ⟨?_, ?_, ?_⟩
  · intro d hd
    simp only [insertDocument, List.mem_append, List.mem_singleton] at hd
    rcases hd with hmem | heq
    · exact Nat.lt_succ_of_lt (hb d hmem)
    · subst heq; exact Nat.lt_succ_self _
  · intro v hv
    simp only [insertDocument, List.mem_append, List.mem_singleton] at hv ⊢
    rcases hv with hmem | heq
    · obtain ⟨d, hd, heq⟩ := hr v hmem
      exact ⟨d, Or.inl hd, heq⟩
    · subst heq; exact ⟨_, Or.inr rfl, rfl⟩
  · intro d hd
    simp only [insertDocument, List.mem_append, List.mem_singleton] at hd
    rcases hd with hmem | heq
    · have hne : ¬ (db.nextId = d.id) := Nat.ne_of_gt (hb d hmem)
      obtain ⟨v, tail, heq, hct⟩ := hf d hmem
      refine ⟨v, tail ++ [], ?_, hct⟩
      simp only [docVersions, insertDocument, List.filter_append]
      rw [docVersions] at heq
      simp [heq, hne]
    · subst heq
      refine ⟨⟨db.nextId, t, "", "created", uid, db.now⟩, [], ?_, rfl⟩
      simp only [docVersions, insertDocument, List.filter_append]
      have hold : db.versions.filter (fun v => decide (v.document_id = db.nextId)) = [] := by
        rw [List.filter_eq_nil_iff]
        intro v hv
        obtain ⟨d1, hd1, heq1⟩ := hr v hv
        simp only [decide_eq_true_eq, heq1]
        exact Nat.ne_of_lt (hb d1 hd1)
      simp [hold]

/-- Unfolding `updateDocument` when the document row is absent. -/
theorem updateDocument_eq_of_missing (db : DB) (did : Nat) (nt nc : String)
    (hfind : findDoc db did = none) :
    updateDocument db did nt nc = db := by
  unfold updateDocument
  rw [hfind]

/-- Unfolding `updateDocument` when the document row was found. -/
theorem updateDocument_eq_of_found (db : DB) (did : Nat) (nt nc : String)
    (d0 : Document) (hfind : findDoc db did = some d0) :
    updateDocument db did nt nc =
      { documents := db.documents.map (fun x =>
          if x.id = did then ⟨d0.id, nt, nc, d0.user_id, db.now⟩ else x)
        versions :=
          match classifyChange false d0.title d0.content nt nc with
          | some ct => db.versions ++ [⟨did, nt, nc, ct, d0.user_id, db.now⟩]
          | none => db.versions
        nextId := db.nextId
        now := db.now + 1 } := by
  unfold updateDocument
  rw [hfind]

/-- Operation `updateDocument` preserves the invariant: the trigger only ever appends
and document ids are untouched. -/
theorem inv_updateDocument (db : DB) (did : Nat) (nt nc : String) (h : Inv db) :
    Inv (updateDocument db did nt nc) := by
  obtain ⟨hb, hr, hf⟩ := h
  cases hfind : findDoc db did with
  | none =>
      rw [updateDocument_eq_of_missing db did nt nc hfind]
      exact ⟨hb, hr, hf⟩
  | some d0 =>
      have hmem0 : d0 ∈ db.documents := List.mem_of_find?_eq_some hfind
      have hid0 : d0.id = did := by
        have := List.find?_some hfind
        simpa using this
      rw [updateDocument_eq_of_found db did nt nc d0 hfind]
      refine ⟨?_, ?_, ?_⟩
      · intro x hx
        dsimp only at hx
        obtain ⟨y, hy, hxy⟩ := mem_map_update_id hx hid0
        rw [hxy]
        exact hb y hy
      · intro v hv
        dsimp only at hv ⊢
        have hvs : v ∈ db.versions ∨ v.document_id = did := by
          revert hv
          cases hcl : classifyChange false d0.title d0.content nt nc with
          | none => intro hv; exact Or.inl hv
          | some ct =>
              intro hv
              simp only [List.mem_append, List.mem_singleton] at hv
              rcases hv with h1 | h1
              · exact Or.inl h1
              · subst h1; exact Or.inr rfl
        rcases hvs with hvm | hvdid
        · obtain ⟨y, hy, heq⟩ := hr v hvm
          by_cases hc : y.id = did
          · refine ⟨⟨d0.id, nt, nc, d0.user_id, db.now⟩, ?_, ?_⟩
            · exact List.mem_map.mpr ⟨y, hy, by simp [hc]⟩
            · simp [heq, hc, hid0]
          · exact ⟨y, List.mem_map.mpr ⟨y, hy, by simp [hc]⟩, by simp [heq]⟩
        · refine ⟨⟨d0.id, nt, nc, d0.user_id, db.now⟩, ?_, ?_⟩
          · exact List.mem_map.mpr ⟨d0, hmem0, by simp [hid0]⟩
          · simp [hvdid, hid0]
      · intro x hx
        dsimp only at hx
        obtain ⟨y, hy, hxy⟩ := mem_map_update_id hx hid0
        obtain ⟨v, tail, heq, hct⟩ := hf y hy
        rw [docVersions] at heq
        cases hcl : classifyChange false d0.title d0.content nt nc with
        | none =>
            refine ⟨v, tail, ?_, hct⟩
            simp only [docVersions, hxy]
            exact heq
        | some ct =>
            refine ⟨v, tail ++ List.filter (fun w => decide (w.document_id = x.id))
              [⟨did, nt, nc, ct, d0.user_id, db.now⟩], ?_, hct⟩
            simp only [docVersions, List.filter_append, hxy]
            rw [heq]
            simp [hxy]

/-- Operation `deleteDocument` preserves the invariant: the cascade removes exactly
the dead document's rows. -/
theorem inv_deleteDocument (db : DB) (did : Nat) (h : Inv db) :
    Inv (deleteDocument db did) := by
  obtain ⟨hb, hr, hf⟩ := h
  refine ⟨?_, ?_, ?_⟩
  · intro d hd
    simp only [deleteDocument, List.mem_filter] at hd
    exact hb d hd.1
  · intro v hv
    simp only [deleteDocument, List.mem_filter] at hv
    obtain ⟨hvm, hvne⟩ := hv
    have hvne' : ¬ v.document_id = did := by simpa using hvne
    obtain ⟨y, hy, heq⟩ := hr v hvm
    refine ⟨y, ?_, heq⟩
    simp only [deleteDocument, List.mem_filter]
    refine ⟨hy, ?_⟩
    simp only [decide_eq_true_eq]
    rw [← heq]
    exact hvne'
  · intro d hd
    simp only [deleteDocument, List.mem_filter] at hd
    obtain ⟨hdm, hdne⟩ := hd
    have hdne' : ¬ d.id = did := by simpa using hdne
    obtain ⟨v, tail, heq, hct⟩ := hf d hdm
    refine ⟨v, tail, ?_, hct⟩
    simp only [docVersions, deleteDocument]
    rw [docVersions] at heq
    rw [filter_doc_of_ne hdne']
    exact heq

/-- Operation `restoreVersion` preserves the invariant: it is an update plus, at most,
one more appended version row pointing at the live document. -/
theorem inv_restoreVersion (db : DB) (did : Nat) (v : Version) (u : Option Nat)
    (h : Inv db) : Inv (restoreVersion db did v u) := by
  have h1 : Inv (updateDocument db did v.title v.content) :=
    inv_updateDocument db did v.title v.content h
  unfold restoreVersion
  cases u with
  | none => exact h1
  | some uid =>
      dsimp only
      split
      · rename_i hsome
        obtain ⟨hb1, hr1, hf1⟩ := h1
        obtain ⟨d1, hd1⟩ := Option.isSome_iff_exists.mp hsome
        have hmem1 : d1 ∈ (updateDocument db did v.title v.content).documents :=
          List.mem_of_find?_eq_some hd1
        have hid1 : d1.id = did := by
          have := List.find?_some hd1
          simpa using this
        refine ⟨?_, ?_, ?_⟩
        · intro d hd
          exact hb1 d hd
        · intro w hw
          simp only [List.mem_append, List.mem_singleton] at hw
          rcases hw with h2 | h2
          · exact hr1 w h2
          · subst h2; exact ⟨d1, hmem1, hid1.symm⟩
        · intro d hd
          obtain ⟨w, tail, heq, hct⟩ := hf1 d hd
          rw [docVersions] at heq
          refine ⟨w, tail ++ List.filter (fun x => decide (x.document_id = d.id))
            [⟨did, v.title, v.content, "restored", uid,
              (updateDocument db did v.title v.content).now⟩], ?_, hct⟩
          simp only [docVersions, List.filter_append]
          rw [heq]
          simp
      · exact h1

/-- Every reachable database state satisfies the invariant. -/
theorem inv_of_reachable (db : DB) (h : Reachable db) : Inv db := by
  induction h with
  | init =>
      refine ⟨?_, ?_, ?_⟩ <;> intro x hx <;> simp at hx
  | create t uid hrch ih => exact inv_insertDocument _ t uid ih
  | update did nt nc hrch ih => exact inv_updateDocument _ did nt nc ih
  | del did hrch ih => exact inv_deleteDocument _ did ih
  | restore did v u hrch hv ih => exact inv_restoreVersion _ did v u ih

/-- C7: in every reachable state, every document that has been created has
at least one version, and its first (oldest) version has classification
`created`. -/
theorem C7_first_version_created (db : DB) (h : Reachable db) (d : Document)
    (hd : d ∈ db.documents) :
    docVersions db d.id ≠ [] ∧
    (docVersions db d.id).head?.map Version.change_type = some "created" := by
  obtain ⟨v, tail, heq, hct⟩ := (inv_of_reachable db h).2.2 d hd
  rw [heq]
  exact ⟨by simp, by simp [hct]⟩

/-- Witness for C7 at the concrete state reached by creating one document. -/
theorem C7_first_version_created_witness :
    docVersions (insertDocument ⟨[], [], 0, 0⟩ "Draft" 7) 0 ≠ [] ∧
    (docVersions (insertDocument ⟨[], [], 0, 0⟩ "Draft" 7) 0).head?.map
      Version.change_type = some "created" :=
  C7_first_version_created (insertDocument ⟨[], [], 0, 0⟩ "Draft" 7)
    (Reachable.create "Draft" 7 Reachable.init) ⟨0, "Draft", "", 7, 0⟩ (by decide)

/-! ## Restore bookkeeping (C4) -/

/-- Lookup `findDoc` only reads the documents table. -/
theorem findDoc_mk (docs : List Document) (vs : List Version) (n m : Nat)
    (did : Nat) :
    findDoc ⟨docs, vs, n, m⟩ did = docs.find? (fun d => d.id = did) := rfl

/-- After replacing the matching document, the row lookup returns the
replacement. -/
theorem findDoc_map_replace {l : List Document} {did : Nat} {d d' : Document}
    (h : l.find? (fun x => x.id = did) = some d) (hd' : d'.id = did) :
    (l.map (fun x => if x.id = did then d' else x)).find? (fun x => x.id = did)
      = some d' := by
  induction l with
  | nil => simp at h
  | cons a t ih =>
      by_cases ha : a.id = did
      · simp only [List.map_cons, if_pos ha]
        exact List.find?_cons_of_pos _ (by simpa using hd')
      · simp only [List.map_cons, if_neg ha]
        rw [List.find?_cons_of_neg _ (by simpa using ha)]
        rw [List.find?_cons_of_neg _ (by simpa using ha)] at h
        exact ih h

/-- The document row after an update carries the new title and content. -/
theorem findDoc_updateDocument (db : DB) (did : Nat) (nt nc : String)
    (d : Document) (hfind : findDoc db did = some d) :
    findDoc (updateDocument db did nt nc) did
      = some ⟨d.id, nt, nc, d.user_id, db.now⟩ := by
  have hid : d.id = did := by
    have := List.find?_some hfind
    simpa using this
  rw [updateDocument_eq_of_found db did nt nc d hfind]
  simp only [findDoc]
  exact findDoc_map_replace hfind hid

/-- Unfolding a restore with a present user on an existing document: the
document update runs, then the `restored` row is appended. -/
theorem restoreVersion_eq_of_found (db : DB) (did : Nat) (v : Version) (uid : Nat)
    (d : Document) (hfind : findDoc db did = some d) :
    restoreVersion db did v (some uid) =
      { documents := (updateDocument db did v.title v.content).documents
        versions := (updateDocument db did v.title v.content).versions ++
          [⟨did, v.title, v.content, "restored", uid,
            (updateDocument db did v.title v.content).now⟩]
        nextId := (updateDocument db did v.title v.content).nextId
        now := (updateDocument db did v.title v.content).now + 1 } := by
  unfold restoreVersion
  dsimp only
  rw [findDoc_updateDocument db did v.title v.content d hfind]
  rfl

/-- A version of the initial snapshot of `exDB`, differing from the live
state of its document. -/
def exCreatedVersion : Version := ⟨0, "A", "x", "created", 7, 0⟩

/-- C4 counterexample: restoring the `created` version of `exDB`'s document
(whose live state differs from it) twice in a row appends three new
versions, not two — the first restore's document update fires the Recorder
trigger in addition to the explicit `restored` insert. -/
theorem C4_counterexample :
    exCreatedVersion ∈ exDB.versions ∧ exCreatedVersion.document_id = 0 ∧
    (restoreVersion (restoreVersion exDB 0 exCreatedVersion (some 7))
        0 exCreatedVersion (some 7)).versions.length
      = exDB.versions.length + 3 := by decide

/-- C4 amended: restoring a version twice in a row leaves the document's
(title, content) equal to the version's after each call, and each call
appends exactly one `restored` version; the second call appends nothing
else (the Recorder sees no change), while the first call additionally fires
one Recorder version (`content_modified` or `title_updated`) exactly when
the version's (title, content) differs from the live state. -/
theorem C4_restore_twice (db : DB) (did : Nat) (d : Document) (v : Version)
    (uid : Nat) (hfind : findDoc db did = some d) :
    ((findDoc (restoreVersion db did v (some uid)) did).map
        (fun x => (x.title, x.content)) = some (v.title, v.content) ∧
      (findDoc (restoreVersion (restoreVersion db did v (some uid))
          did v (some uid)) did).map
        (fun x => (x.title, x.content)) = some (v.title, v.content)) ∧
    (∃ r2, (restoreVersion (restoreVersion db did v (some uid))
          did v (some uid)).versions
        = (restoreVersion db did v (some uid)).versions ++ [r2] ∧
      r2.change_type = "restored" ∧ r2.title = v.title ∧ r2.content = v.content) ∧
    (∃ extra r1, (restoreVersion db did v (some uid)).versions
        = db.versions ++ extra ++ [r1] ∧
      r1.change_type = "restored" ∧ r1.title = v.title ∧ r1.content = v.content ∧
      ((d.title = v.title ∧ d.content = v.content) → extra = []) ∧
      (¬ (d.title = v.title ∧ d.content = v.content) →
        ∃ w, extra = [w] ∧
          (w.change_type = "content_modified" ∨ w.change_type = "title_updated"))) := by
  have h1 := restoreVersion_eq_of_found db did v uid d hfind
  have hud := findDoc_updateDocument db did v.title v.content d hfind
  have hfind1 : findDoc (restoreVersion db did v (some uid)) did
      = some ⟨d.id, v.title, v.content, d.user_id, db.now⟩ := by
    rw [h1]
    exact hud
  have h2 := restoreVersion_eq_of_found (restoreVersion db did v (some uid)) did v uid
    ⟨d.id, v.title, v.content, d.user_id, db.now⟩ hfind1
  have hud2 := findDoc_updateDocument (restoreVersion db did v (some uid)) did
    v.title v.content ⟨d.id, v.title, v.content, d.user_id, db.now⟩ hfind1
  have hcl2 : classifyChange false v.title v.content v.title v.content = none := by
    simp [classifyChange]
  have hupd2 : (updateDocument (restoreVersion db did v (some uid))
        did v.title v.content).versions
      = (restoreVersion db did v (some uid)).versions := by
    rw [updateDocument_eq_of_found (restoreVersion db did v (some uid))
      did v.title v.content ⟨d.id, v.title, v.content, d.user_id, db.now⟩ hfind1]
    dsimp only
    rw [hcl2]
  refine ⟨⟨?_, ?_⟩, ?_, ?_⟩
  · rw [hfind1]
    rfl
  · rw [h2, findDoc_mk]
    have hud2' : (updateDocument (restoreVersion db did v (some uid)) did
          v.title v.content).documents.find? (fun x => x.id = did)
        = some ⟨d.id, v.title, v.content, d.user_id,
            (restoreVersion db did v (some uid)).now⟩ := hud2
    rw [hud2']
    rfl
  · refine ⟨⟨did, v.title, v.content, "restored", uid,
      (updateDocument (restoreVersion db did v (some uid))
        did v.title v.content).now⟩, ?_, rfl, rfl, rfl⟩
    rw [h2]
    dsimp only
    rw [hupd2]
  · by_cases hsame : d.title = v.title ∧ d.content = v.content
    · refine ⟨[], ⟨did, v.title, v.content, "restored", uid,
        (updateDocument db did v.title v.content).now⟩, ?_, rfl, rfl, rfl,
        fun _ => rfl, fun hc => absurd hsame hc⟩
      rw [h1]
      dsimp only
      have hclnone : classifyChange false d.title d.content v.title v.content = none := by
        simp [classifyChange, hsame.1, hsame.2]
      rw [updateDocument_eq_of_found db did v.title v.content d hfind]
      dsimp only
      rw [hclnone]
      simp
    · have hcl : ∃ ct, classifyChange false d.title d.content v.title v.content
          = some ct ∧ (ct = "content_modified" ∨ ct = "title_updated") := by
        by_cases ht : d.title = v.title
        · by_cases hc : d.content = v.content
          · exact absurd ⟨ht, hc⟩ hsame
          · exact ⟨"content_modified", by simp [classifyChange, ht, hc], Or.inl rfl⟩
        · by_cases hc : d.content = v.content
          · exact ⟨"title_updated", by simp [classifyChange, ht, hc], Or.inr rfl⟩
          · exact ⟨"content_modified", by simp [classifyChange, ht, hc], Or.inl rfl⟩
      obtain ⟨ct, hctype, hctor⟩ := hcl
      refine ⟨[⟨did, v.title, v.content, ct, d.user_id, db.now⟩],
        ⟨did, v.title, v.content, "restored", uid,
          (updateDocument db did v.title v.content).now⟩, ?_, rfl, rfl, rfl,
        fun hc => absurd hc hsame, fun _ => ⟨_, rfl, hctor⟩⟩
      rw [h1]
      dsimp only
      rw [updateDocument_eq_of_found db did v.title v.content d hfind]
      dsimp only
      rw [hctype]

/-- Witness for the amended C4 at `exDB`: after one restore the live
document equals the restored version's (title, content). -/
theorem C4_restore_twice_witness :
    (findDoc (restoreVersion exDB 0 exCreatedVersion (some 7)) 0).map
        (fun x => (x.title, x.content))
      = some (exCreatedVersion.title, exCreatedVersion.content) :=
  (C4_restore_twice exDB 0 ⟨0, "B", "y", 7, 1⟩ exCreatedVersion 7 (by decide)).1.1

/-! ## Debounce properties (C9) -/

/-- Every firing carries an edit of the timeline. -/
theorem debounceFires_mem (edits : List Edit) (p : Nat × Edit)
    (hp : p ∈ debounceFires edits) : p.2 ∈ edits := by
  induction edits with
  | nil => simp [debounceFires] at hp
  | cons e rest ih =>
      cases rest with
      | nil =>
          simp only [debounceFires, List.mem_singleton] at hp
          rw [hp]
          exact List.mem_singleton_self e
      | cons g rest2 =>
          simp only [debounceFires] at hp
          by_cases hgt : g.t < e.t + 1000
          · rw [if_pos hgt] at hp
            exact List.mem_cons_of_mem e (ih hp)
          · rw [if_neg hgt] at hp
            rcases List.mem_cons.mp hp with h | h
            · rw [h]
              exact List.mem_cons_self e _
            · exact List.mem_cons_of_mem e (ih h)

/-- On a strictly chronological timeline, every firing happens exactly
1000 ms after its edit, and no further edit falls inside that window: the
quiet period really was quiet. -/
theorem debounceFires_spec (edits : List Edit)
    (hp : List.Pairwise (fun a b => a.t < b.t) edits) :
    ∀ p ∈ debounceFires edits, p.1 = p.2.t + 1000 ∧ p.2 ∈ edits ∧
      ∀ f ∈ edits, p.2.t < f.t → p.2.t + 1000 ≤ f.t := by
  induction edits with
  | nil =>
      intro p hp2
      simp [debounceFires] at hp2
  | cons e rest ih =>
      cases rest with
      | nil =>
          intro p hp2
          simp only [debounceFires, List.mem_singleton] at hp2
          subst hp2
          refine ⟨rfl, List.mem_singleton_self e, ?_⟩
          intro f hf hlt
          rw [List.mem_singleton] at hf
          subst hf
          exact absurd hlt (Nat.lt_irrefl _)
      | cons g rest2 =>
          obtain ⟨he, hrest⟩ := List.pairwise_cons.mp hp
          intro p hp2
          simp only [debounceFires] at hp2
          by_cases hgt : g.t < e.t + 1000
          · rw [if_pos hgt] at hp2
            obtain ⟨h1, h2, h3⟩ := ih hrest p hp2
            refine ⟨h1, List.mem_cons_of_mem e h2, ?_⟩
            intro f hf hlt
            rcases List.mem_cons.mp hf with rfl | hf2
            · exact absurd (Nat.lt_trans (he p.2 h2) hlt) (Nat.lt_irrefl _)
            · exact h3 f hf2 hlt
          · rw [if_neg hgt] at hp2
            rcases List.mem_cons.mp hp2 with rfl | hp3
            · refine ⟨rfl, List.mem_cons_self e _, ?_⟩
              intro f hf hlt
              rcases List.mem_cons.mp hf with rfl | hf2
              · exact absurd hlt (Nat.lt_irrefl _)
              · rcases List.mem_cons.mp hf2 with rfl | hf3
                · exact Nat.le_of_not_lt hgt
                · obtain ⟨hg2, _⟩ := List.pairwise_cons.mp hrest
                  exact Nat.le_of_lt
                    (Nat.lt_of_le_of_lt (Nat.le_of_not_lt hgt) (hg2 f hf3))
            · obtain ⟨h1, h2, h3⟩ := ih hrest p hp3
              refine ⟨h1, List.mem_cons_of_mem e h2, ?_⟩
              intro f hf hlt
              rcases List.mem_cons.mp hf with rfl | hf2
              · exact absurd (Nat.lt_trans (he p.2 h2) hlt) (Nat.lt_irrefl _)
              · exact h3 f hf2 hlt

/-- A burst — every gap between consecutive edits under 1000 ms — collapses
to the single firing of its last edit. -/
theorem debounceFires_burst (edits : List Edit) (hne : edits ≠ [])
    (hburst : List.Chain' (fun a b => b.t < a.t + 1000) edits) :
    ∃ lst, edits.getLast? = some lst ∧
      debounceFires edits = [(lst.t + 1000, lst)] := by
  induction edits with
  | nil => exact absurd rfl hne
  | cons e rest ih =>
      cases rest with
      | nil => exact ⟨e, rfl, rfl⟩
      | cons g rest2 =>
          obtain ⟨hg, hrest⟩ := List.chain'_cons.mp hburst
          obtain ⟨lst, hl, hf⟩ := ih (by simp) hrest
          refine ⟨lst, ?_, ?_⟩
          · rw [List.getLast?_cons_cons]
            exact hl
          · simp only [debounceFires, if_pos hg]
            exact hf

/-- Firings whose data all equal the persisted baseline issue no write. -/
theorem writesFrom_nil_of_all_base (base : String × String)
    (l : List (Nat × Edit))
    (h : ∀ p ∈ l, (p.2.title, p.2.content) = base) : writesFrom base l = [] := by
  induction l with
  | nil => rfl
  | cons p rest ih =>
      obtain ⟨ft, e⟩ := p
      have hp := h (ft, e) (List.mem_cons_self _ _)
      simp only [writesFrom]
      rw [if_pos hp]
      exact ih (fun q hq => h q (List.mem_cons_of_mem _ hq))

/-- C9: a save fires only after a 1-second quiet period (the timer restarts
on each edit, so no other edit falls between an edit and its firing); a
burst of edits with gaps under one second coalesces into a single write
carrying the most recent (title, content); and edits whose (title, content)
equals the persisted state issue no write at all. -/
theorem C9_debounced_autosave (edits : List Edit) (base : String × String) :
    (List.Pairwise (fun a b => a.t < b.t) edits →
      ∀ p ∈ debounceFires edits, p.1 = p.2.t + 1000 ∧ p.2 ∈ edits ∧
        ∀ f ∈ edits, p.2.t < f.t → p.2.t + 1000 ≤ f.t) ∧
    (edits ≠ [] → List.Chain' (fun a b => b.t < a.t + 1000) edits →
      ∃ lst, edits.getLast? = some lst ∧
        debounceFires edits = [(lst.t + 1000, lst)] ∧
        ((lst.title, lst.content) ≠ base →
          debounceWrites base edits = [(lst.t + 1000, lst.title, lst.content)]) ∧
        ((lst.title, lst.content) = base → debounceWrites base edits = [])) ∧
    ((∀ f ∈ edits, (f.title, f.content) = base) →
      debounceWrites base edits = []) := by
  refine ⟨fun hp => debounceFires_spec edits hp, ?_, ?_⟩
  · intro hne hburst
    obtain ⟨lst, hl, hf⟩ := debounceFires_burst edits hne hburst
    refine ⟨lst, hl, hf, ?_, ?_⟩
    · intro hneq
      rw [debounceWrites, hf]
      simp only [writesFrom]
      rw [if_neg hneq]
    · intro heq
      rw [debounceWrites, hf]
      simp only [writesFrom]
      rw [if_pos heq]
  · intro hall
    rw [debounceWrites]
    apply writesFrom_nil_of_all_base
    intro p hp2
    exact hall p.2 (debounceFires_mem edits p hp2)

/-- Witness for C9 on a concrete two-edit burst: only the later edit's
timer fires, one second after it. -/
theorem C9_debounced_autosave_witness :
    debounceFires [⟨0, "a", "x"⟩, ⟨500, "b", "y"⟩] = [(1500, ⟨500, "b", "y"⟩)] := by
  obtain ⟨lst, hl, hf, _, _⟩ :=
    (C9_debounced_autosave [⟨0, "a", "x"⟩, ⟨500, "b", "y"⟩] ("a", "x")).2.1
      (by simp) (by simp [List.chain'_cons, List.chain'_singleton])
  have hlst : lst = ⟨500, "b", "y"⟩ := by
    simp only [List.getLast?_cons_cons, List.getLast?_singleton] at hl
    exact (Option.some_inj.mp hl).symm
  rw [hlst] at hf
  exact hf

end Cody
